import Mathlib

/-!
Verification of the chunked disk-backed buffer queue and the readiness-driven
stream pump of `timeshift.c`.

The embedding models the byte content of each chunk's backing file as a
`List Nat` (one entry per byte).  Disk and socket system calls are modelled
through explicit outcome lists (`WOut`, `SWRes`, `IORes`): an empty or
exhausted outcome list means the call succeeds in full, which is the
behaviour of `read`/`write` on regular files absent errors.  A function
returning `none` models a path on which the C code calls `abort()` (or, for
`drop_storage` on an empty list, prints and aborts).
-/

/-- Mirror of `struct storage_t`: one disk chunk.  `data` is the byte content
of the backing file (always of length `offw`, since all writes append through
`fdw`), `offr`/`offw` are the read and write offsets.  The `next` pointer is
represented by the position in the queue list; `name`, `fdr`, `fdw` carry no
byte-level information. -/
structure storage_t where
  data : List Nat
  offr : Nat
  offw : Nat
deriving Repr, DecidableEq

/-- Mirror of `struct thread_t`: the FIFO of chunks.  `last_storage` in the C
code is always either null (empty list) or the final list node, so it is
represented by `storage.getLast?`. -/
structure thread_t where
  storage : List storage_t
deriving Repr, DecidableEq

/-- A freshly `mkstemp`-ed chunk: empty file, both offsets zero. -/
def newStorage : storage_t := ⟨[], 0, 0⟩

/-- Mirror of `new_thread_t`: empty queue. -/
def new_thread_t : thread_t := ⟨[]⟩

/-- Mirror of `alloc_storage`: push a fresh chunk at the end of the list and
make it `last_storage`. -/
def alloc_storage (th : thread_t) : thread_t :=
  ⟨th.storage ++ [newStorage]⟩

/-- Mirror of `drop_storage`: remove the head chunk (close and unlink its
file).  Aborts (`none`) when the list is empty. -/
def drop_storage (th : thread_t) : Option thread_t :=
  match th.storage with
  | [] => none
  | _ :: rest => some ⟨rest⟩

/-- Loop body list of `drop_all_storage`. -/
def drop_all_list : List storage_t → List storage_t
  | [] => []
  | _ :: rest => drop_all_list rest

/-- Mirror of `drop_all_storage`: `while (th->storage) drop_storage(th);`. -/
def drop_all_storage (th : thread_t) : thread_t :=
  ⟨drop_all_list th.storage⟩

/-- The eviction condition of `drop_used_storage`:
`offr == offw && offw == chunksize`. -/
def sealedDrained (C : Nat) (s : storage_t) : Bool :=
  s.offr == s.offw && s.offw == C

/-- Mirror of `drop_used_storage`: repeatedly drop the head chunk while it is
sealed and fully drained. -/
def drop_used_storage (C : Nat) (th : thread_t) : thread_t :=
  ⟨th.storage.dropWhile (sealedDrained C)⟩

/-- Outcome of one `write(2)` call issued by the loop in `do_storage_write`.
`ok n` is a successful write of `n` bytes (capped at the requested amount),
`enospc` is a failure with `errno == ENOSPC`, `fail` is any other failure
(on which the C code calls `perror("write"), abort()`). -/
inductive WOut where
  | ok (n : Nat)
  | enospc
  | fail
deriving Repr, DecidableEq

/-- The `while (s->offw < chunksize && (p - buf) < bufsz)` loop of
`do_storage_write`, acting on the tail chunk `s`.  `written` is `p - buf`.
Consumes one `WOut` per `write` call; once the outcome list is exhausted,
writes succeed in full — and after a full write of
`towr = MIN(chunksize - offw, bufsz - written)` the loop condition is
necessarily false on the next test (either the chunk is full or the buffer is
consumed), so that case returns directly.  `enospc` models
`if (errno == ENOSPC) return bufsz;` (the silent-discard policy) and `fail`
models the `abort()`. -/
def write_loop (C : Nat) (s : storage_t) (buf : List Nat) (written : Nat)
    (outs : List WOut) : Option (storage_t × Nat × List WOut) :=
  if s.offw < C ∧ written < buf.length then
    let towr := min (C - s.offw) (buf.length - written)
    match outs with
    | [] =>
        some (⟨s.data ++ (buf.drop written).take towr, s.offr, s.offw + towr⟩,
              written + towr, [])
    | .ok n :: rest =>
        let sz := min n towr
        write_loop C ⟨s.data ++ (buf.drop written).take sz, s.offr, s.offw + sz⟩
          buf (written + sz) rest
    | .enospc :: rest => some (s, buf.length, rest)
    | .fail :: _ => none
  else
    some (s, written, outs)
termination_by outs.length
decreasing_by simp

/-- The allocation test of `do_storage_write`:
`!th->last_storage || th->last_storage->offw == chunksize`. -/
def needAlloc (C : Nat) (th : thread_t) : Bool :=
  match th.storage.getLast? with
  | none => true
  | some s => s.offw == C

/-- Apply `write_loop` to the last element of the chunk list (the C code
writes through the `last_storage` pointer), leaving all other chunks
untouched. -/
def writeTail (C : Nat) (buf : List Nat) (outs : List WOut) :
    List storage_t → Option (List storage_t × Nat × List WOut)
  | [] => some ([], 0, outs)
  | [s] =>
    match write_loop C s buf 0 outs with
    | none => none
    | some (s2, n, rest) => some ([s2], n, rest)
  | s :: s2 :: ss =>
    match writeTail C buf outs (s2 :: ss) with
    | none => none
    | some (l, n, rest) => some (s :: l, n, rest)

/-- Mirror of `do_storage_write`: allocate a fresh tail chunk if the queue is
empty or the tail is sealed, then run the write loop on the tail.  Returns the
count reported to the caller and the unconsumed syscall outcomes; `none`
models `abort()`. -/
def do_storage_write (C : Nat) (th : thread_t) (buf : List Nat) (outs : List WOut) :
    Option (thread_t × Nat × List WOut) :=
  match writeTail C buf outs (if needAlloc C th then alloc_storage th else th).storage with
  | none => none
  | some (l, n, rest) => some (⟨l⟩, n, rest)

/-- The `while ((p - buf) < bufsz)` loop of `write_storage`, with explicit
fuel.  Each iteration hands the remaining suffix to `do_storage_write` and
advances by the reported count. -/
def write_storage_go (C : Nat) : Nat → thread_t → List Nat → List WOut → Option thread_t
  | 0, th, _, _ => some th
  | fuel + 1, th, buf, outs =>
    if buf.length = 0 then some th
    else
      match do_storage_write C th buf outs with
      | none => none
      | some (th2, n, rest) => write_storage_go C fuel th2 (buf.drop n) rest

/-- Mirror of `write_storage`: write the whole buffer.  A fuel of
`buf.length + outs.length` suffices: on well-formed states with `C ≥ 1` every
`do_storage_write` call either consumes a syscall outcome or writes at least
one byte. -/
def write_storage (C : Nat) (th : thread_t) (buf : List Nat) (outs : List WOut) :
    Option thread_t :=
  write_storage_go C (buf.length + outs.length) th buf outs

/-- Mirror of `data_available`: evict used head chunks, then report
`offw - offr` of the (new) head, or `0` on an empty queue.  Returns the
mutated queue alongside the count. -/
def data_available (C : Nat) (th : thread_t) : Nat × thread_t :=
  let th1 := drop_used_storage C th
  match th1.storage with
  | [] => (0, th1)
  | s :: _ => (s.offw - s.offr, th1)

/-- Mirror of `read_storage`: peek `MIN(offw - offr, bufsz)` bytes of the head
chunk at offset `offr` (the `fdr` file position, kept equal to `offr` by the
`lseek` pairing), without moving the read offset — the `read` is immediately
undone by `lseek(fdr, -sz, SEEK_CUR)`, so the function has no net state
effect.  Aborts (`none`) on an empty queue, and also when `read` returns 0
("End of file in read_storage, shouldn't happen"), i.e. when no byte can be
read. -/
def read_storage (th : thread_t) (bufsz : Nat) : Option (List Nat) :=
  match th.storage with
  | [] => none
  | s :: _ =>
    let tord := min (s.offw - s.offr) bufsz
    let bytes := (s.data.drop s.offr).take tord
    if bytes.length = 0 then none else some bytes

/-- Mirror of `advance_storage`: `offr += sz` on the head chunk (plus the
matching `lseek(fdr, sz, SEEK_CUR)`, which succeeds for any non-negative
target position on a regular file).  Aborts (`none`) only on an empty
queue — there is no bound check against `offw`. -/
def advance_storage (th : thread_t) (sz : Nat) : Option thread_t :=
  match th.storage with
  | [] => none
  | s :: rest => some ⟨⟨s.data, s.offr + sz, s.offw⟩ :: rest⟩

/-- The unread bytes of one chunk: `data[offr ..< offw]`. -/
def chunkUnread (s : storage_t) : List Nat :=
  (s.data.drop s.offr).take (s.offw - s.offr)

/-- Concatenated unread bytes of a chunk list, head first. -/
def streamL : List storage_t → List Nat
  | [] => []
  | s :: rest => chunkUnread s ++ streamL rest

/-- Concatenated unread bytes of the whole queue. -/
def streamOf (th : thread_t) : List Nat := streamL th.storage

/-- Total count of buffered-but-unread bytes in a chunk list. -/
def unreadL : List storage_t → Nat
  | [] => 0
  | s :: rest => (s.offw - s.offr) + unreadL rest

/-- Total count of buffered-but-unread bytes of the queue. -/
def totalUnread (th : thread_t) : Nat := unreadL th.storage

/-- Consumer drain loop with fuel: while `data_available` reports data, peek
up to `bufsz` bytes with `read_storage` and advance past them, collecting the
bytes in order.  This is the peek/advance discipline of the pump's
output-ready branch (which advances by the count actually written; here the
full peeked count is consumed). -/
def drainFuel (C bufsz : Nat) : Nat → thread_t → List Nat
  | 0, _ => []
  | fuel + 1, th =>
    let r := data_available C th
    if r.1 = 0 then []
    else
      match read_storage r.2 bufsz with
      | none => []
      | some bytes =>
        match advance_storage r.2 bytes.length with
        | none => []
        | some th2 => bytes ++ drainFuel C bufsz fuel th2

/-- Drain the whole queue; `totalUnread` steps of fuel always suffice since
each successful peek yields at least one byte. -/
def drain (C bufsz : Nat) (th : thread_t) : List Nat :=
  drainFuel C bufsz (totalUnread th) th

/-- Append a sequence of byte runs through `write_storage` (all disk writes
succeeding). -/
def appendRuns (C : Nat) : thread_t → List (List Nat) → Option thread_t
  | th, [] => some th
  | th, buf :: rest =>
    match write_storage C th buf [] with
    | none => none
    | some th2 => appendRuns C th2 rest

/-- Well-formedness of one chunk: cursors ordered, file content of length
`offw`, write cursor within capacity. -/
def storageWF (C : Nat) (s : storage_t) : Prop :=
  s.offr ≤ s.offw ∧ s.data.length = s.offw ∧ s.offw ≤ C

/-- Every chunk except the last is sealed (`offw = C`). -/
def allButLastSealed (C : Nat) (l : List storage_t) : Prop :=
  ∀ s ∈ l.dropLast, s.offw = C

/-- Well-formed queue state: all chunks well formed, and only the tail may be
unsealed. -/
def WF (C : Nat) (th : thread_t) : Prop :=
  (∀ s ∈ th.storage, storageWF C s) ∧ allButLastSealed C th.storage

/-! ### Basic lemmas about streams and well-formedness -/

theorem streamL_append (l1 l2 : List storage_t) :
    streamL (l1 ++ l2) = streamL l1 ++ streamL l2 := by
  induction l1 with
  | nil => simp [streamL]
  | cons s l ih => simp [streamL, ih]

theorem chunkUnread_eq_of_WF (s : storage_t) (h : s.data.length = s.offw) :
    chunkUnread s = s.data.drop s.offr := by
  unfold chunkUnread
  apply List.take_of_length_le
  simp [h]

theorem unreadL_eq_zero_streamL (l : List storage_t) (h : unreadL l = 0) :
    streamL l = [] := by
  induction l with
  | nil => rfl
  | cons s rest ih =>
    unfold unreadL at h
    unfold streamL chunkUnread
    rw [ih (by omega)]
    have : s.offw - s.offr = 0 := by omega
    simp [this]

theorem mem_dropLast_append (s : storage_t) (l1 l2 : List storage_t)
    (hs : s ∈ l2.dropLast) : s ∈ (l1 ++ l2).dropLast := by
  induction l1 with
  | nil => simpa
  | cons a l ih =>
    have hne : l ++ l2 ≠ [] := by
      intro hnil
      rcases List.append_eq_nil.mp hnil with ⟨_, h2⟩
      subst h2
      simp at hs
    rw [List.cons_append, List.dropLast_cons_of_ne_nil hne]
    exact List.mem_cons_of_mem _ ih

theorem allButLastSealed_suffix (C : Nat) (l1 l2 : List storage_t)
    (h : allButLastSealed C (l1 ++ l2)) : allButLastSealed C l2 :=
  fun s hs => h s (mem_dropLast_append s l1 l2 hs)

/-! ### Unfolding lemmas for the write loop -/

theorem write_loop_skip (C : Nat) (s : storage_t) (buf : List Nat) (written : Nat)
    (outs : List WOut) (h : ¬(s.offw < C ∧ written < buf.length)) :
    write_loop C s buf written outs = some (s, written, outs) := by
  unfold write_loop
  rw [if_neg h]

theorem write_loop_enter_nil (C : Nat) (s : storage_t) (buf : List Nat) (written : Nat)
    (h1 : s.offw < C) (h2 : written < buf.length) :
    write_loop C s buf written [] =
      some (⟨s.data ++ (buf.drop written).take (min (C - s.offw) (buf.length - written)),
             s.offr, s.offw + min (C - s.offw) (buf.length - written)⟩,
            written + min (C - s.offw) (buf.length - written), []) := by
  unfold write_loop
  rw [if_pos ⟨h1, h2⟩]

theorem write_loop_enospc (C : Nat) (s : storage_t) (buf : List Nat) (written : Nat)
    (rest : List WOut) (h1 : s.offw < C) (h2 : written < buf.length) :
    write_loop C s buf written (.enospc :: rest) = some (s, buf.length, rest) := by
  unfold write_loop
  rw [if_pos ⟨h1, h2⟩]

theorem write_loop_fail (C : Nat) (s : storage_t) (buf : List Nat) (written : Nat)
    (rest : List WOut) (h1 : s.offw < C) (h2 : written < buf.length) :
    write_loop C s buf written (.fail :: rest) = none := by
  unfold write_loop
  rw [if_pos ⟨h1, h2⟩]

theorem writeTail_concat (C : Nat) (buf : List Nat) (outs : List WOut)
    (l : List storage_t) (s : storage_t) :
    writeTail C buf outs (l ++ [s]) =
      match write_loop C s buf 0 outs with
      | none => none
      | some (s2, n, rest) => some (l ++ [s2], n, rest) := by
  induction l with
  | nil =>
    simp only [List.nil_append]
    cases h : write_loop C s buf 0 outs with
    | none => simp [writeTail, h]
    | some v =>
      obtain ⟨s2, n, rest⟩ := v
      simp [writeTail, h]
  | cons a l ih =>
    cases hl : l ++ [s] with
    | nil => simp at hl
    | cons b t =>
      rw [List.cons_append, hl]
      rw [hl] at ih
      simp only [writeTail]
      rw [ih]
      cases h : write_loop C s buf 0 outs with
      | none => rfl
      | some v =>
        obtain ⟨s2, n, rest⟩ := v
        simp

/-- Shape of the queue after the allocation step of `do_storage_write` on a
well-formed state: a (possibly empty) list of sealed, well-formed chunks
followed by one well-formed, unsealed tail chunk, with the same unread byte
stream as before. -/
theorem postAlloc_spec (C : Nat) (th : thread_t) (hC : 1 ≤ C) (hWF : WF C th) :
    ∃ l s, (if needAlloc C th then alloc_storage th else th).storage = l ++ [s] ∧
      (∀ x ∈ l, storageWF C x ∧ x.offw = C) ∧
      storageWF C s ∧ s.offw < C ∧
      streamL (l ++ [s]) = streamL th.storage := by
  obtain ⟨hmem, hseal⟩ := hWF
  rcases List.eq_nil_or_concat th.storage with hnil | ⟨L, b, hcat⟩
  · refine ⟨[], newStorage, ?_, ?_, ?_, ?_, ?_⟩
    · have : needAlloc C th = true := by
        unfold needAlloc
        rw [hnil]
        rfl
      rw [if_pos this]
      unfold alloc_storage
      rw [hnil]
    · simp
    · exact ⟨Nat.le_refl 0, rfl, Nat.zero_le C⟩
    · exact hC
    · rw [hnil]
      simp [streamL, chunkUnread, newStorage]
  · have hcat' : th.storage = L ++ [b] := by simpa using hcat
    have hlast : th.storage.getLast? = some b := by rw [hcat']; exact List.getLast?_concat L
    have hLseal : ∀ x ∈ L, x.offw = C := by
      intro x hx
      apply hseal
      rw [hcat', List.dropLast_concat]
      exact hx
    have hbWF : storageWF C b := hmem b (by rw [hcat']; simp)
    by_cases hb : b.offw = C
    · -- tail sealed: a fresh chunk is allocated
      have hna : needAlloc C th = true := by
        unfold needAlloc
        rw [hlast]
        simp [hb]
      refine ⟨th.storage, newStorage, ?_, ?_, ?_, ?_, ?_⟩
      · rw [if_pos hna]
        rfl
      · intro x hx
        rw [hcat'] at hx
        rcases List.mem_append.mp hx with hx | hx
        · exact ⟨hmem x (by rw [hcat']; exact List.mem_append_left _ hx), hLseal x hx⟩
        · have : x = b := by simpa using hx
          subst this
          exact ⟨hbWF, hb⟩
      · exact ⟨Nat.le_refl 0, rfl, Nat.zero_le C⟩
      · exact hC
      · rw [streamL_append]
        simp [streamL, chunkUnread, newStorage]
    · -- tail unsealed: write into it
      have hna : needAlloc C th = false := by
        unfold needAlloc
        rw [hlast]
        simp [hb]
      refine ⟨L, b, ?_, ?_, hbWF, ?_, ?_⟩
      · rw [if_neg (by rw [hna]; exact Bool.false_ne_true)]
        exact hcat'
      · intro x hx
        exact ⟨hmem x (by rw [hcat']; exact List.mem_append_left _ hx), hLseal x hx⟩
      · exact Nat.lt_of_le_of_ne hbWF.2.2 hb
      · rw [hcat']

theorem chunkUnread_extend (s : storage_t) (w : Nat) (bytes : List Nat)
    (hlen : s.data.length = s.offw) (hro : s.offr ≤ s.offw) (hb : bytes.length = w) :
    chunkUnread ⟨s.data ++ bytes, s.offr, s.offw + w⟩ = chunkUnread s ++ bytes := by
  unfold chunkUnread
  dsimp only
  rw [List.drop_append_of_le_length (by omega)]
  have hdl : (s.data.drop s.offr).length = s.offw - s.offr := by
    rw [List.length_drop, hlen]
  have harith : s.offw + w - s.offr = (s.data.drop s.offr).length + w := by omega
  rw [harith, List.take_append, List.take_of_length_le (Nat.le_of_eq hb),
      List.take_of_length_le (Nat.le_of_eq hdl)]

theorem do_storage_write_nil_spec (C : Nat) (th : thread_t) (buf : List Nat)
    (hC : 1 ≤ C) (hWF : WF C th) (hbuf : buf ≠ []) :
    ∃ th2 w, do_storage_write C th buf [] = some (th2, w, []) ∧
      1 ≤ w ∧ w ≤ buf.length ∧
      streamL th2.storage = streamL th.storage ++ buf.take w ∧ WF C th2 := by
  obtain ⟨l, s, hshape, hlWF, hsWF, hsC, hstream⟩ := postAlloc_spec C th hC hWF
  obtain ⟨hro, hdl, hwc⟩ := hsWF
  have hlen : 0 < buf.length := List.length_pos.mpr hbuf
  have hloop := write_loop_enter_nil C s buf 0 hsC hlen
  simp only [List.drop_zero, Nat.sub_zero, Nat.zero_add] at hloop
  refine ⟨⟨l ++ [⟨s.data ++ buf.take (min (C - s.offw) buf.length), s.offr,
            s.offw + min (C - s.offw) buf.length⟩]⟩,
          min (C - s.offw) buf.length, ?_, by omega, by omega, ?_, ?_⟩
  · unfold do_storage_write
    rw [hshape, writeTail_concat, hloop]
  · rw [streamL_append, ← hstream, streamL_append]
    have hext := chunkUnread_extend s (min (C - s.offw) buf.length)
      (buf.take (min (C - s.offw) buf.length)) hdl hro
      (by rw [List.length_take]; omega)
    simp only [streamL, List.append_nil]
    rw [hext, ← List.append_assoc]
  · constructor
    · intro x hx
      rcases List.mem_append.mp hx with hx | hx
      · exact (hlWF x hx).1
      · have hxe : x = ⟨s.data ++ buf.take (min (C - s.offw) buf.length), s.offr,
            s.offw + min (C - s.offw) buf.length⟩ := by simpa using hx
        subst hxe
        refine ⟨?_, ?_, ?_⟩
        · dsimp only
          omega
        · dsimp only
          rw [List.length_append, hdl, List.length_take]
          omega
        · dsimp only
          omega
    · intro x hx
      rw [List.dropLast_concat] at hx
      exact (hlWF x hx).2

theorem write_storage_go_nil_spec (C : Nat) (hC : 1 ≤ C) :
    ∀ fuel buf th, WF C th → buf.length ≤ fuel →
      ∃ th2, write_storage_go C fuel th buf [] = some th2 ∧
        streamL th2.storage = streamL th.storage ++ buf ∧ WF C th2 := by
  intro fuel
  induction fuel with
  | zero =>
    intro buf th hWF hf
    have hb : buf = [] := List.eq_nil_of_length_eq_zero (by omega)
    subst hb
    exact ⟨th, rfl, by simp, hWF⟩
  | succ f ih =>
    intro buf th hWF hf
    by_cases hb : buf.length = 0
    · have hb2 : buf = [] := List.eq_nil_of_length_eq_zero hb
      subst hb2
      exact ⟨th, by simp [write_storage_go], by simp, hWF⟩
    · obtain ⟨th1, w, heq, hw1, hwlen, hstream, hWF1⟩ :=
        do_storage_write_nil_spec C th buf hC hWF
          (by intro hnil; rw [hnil] at hb; simp at hb)
      obtain ⟨th2, heq2, hstream2, hWF2⟩ := ih (buf.drop w) th1 hWF1 (by simp; omega)
      refine ⟨th2, ?_, ?_, hWF2⟩
      · simp only [write_storage_go]
        rw [if_neg hb, heq]
        exact heq2
      · rw [hstream2, hstream, List.append_assoc, List.take_append_drop]

theorem write_storage_nil_spec (C : Nat) (th : thread_t) (buf : List Nat)
    (hC : 1 ≤ C) (hWF : WF C th) :
    ∃ th2, write_storage C th buf [] = some th2 ∧
      streamL th2.storage = streamL th.storage ++ buf ∧ WF C th2 := by
  have h := write_storage_go_nil_spec C hC (buf.length + List.length ([] : List WOut))
    buf th hWF (by simp)
  exact h

theorem appendRuns_spec (C : Nat) (hC : 1 ≤ C) :
    ∀ runs th, WF C th →
      ∃ th2, appendRuns C th runs = some th2 ∧
        streamL th2.storage = streamL th.storage ++ runs.flatten ∧ WF C th2 := by
  intro runs
  induction runs with
  | nil =>
    intro th hWF
    exact ⟨th, rfl, by simp, hWF⟩
  | cons buf rest ih =>
    intro th hWF
    obtain ⟨th1, heq, hstream, hWF1⟩ := write_storage_nil_spec C th buf hC hWF
    obtain ⟨th2, heq2, hstream2, hWF2⟩ := ih th1 hWF1
    refine ⟨th2, ?_, ?_, hWF2⟩
    · unfold appendRuns
      rw [heq]
      exact heq2
    · simp [hstream2, hstream, List.append_assoc]

/-! ### Lemmas about eviction and draining -/

theorem chunkUnread_of_drained (s : storage_t) (h : s.offr = s.offw) :
    chunkUnread s = [] := by
  unfold chunkUnread
  rw [h]
  simp

theorem sealedDrained_true_iff (C : Nat) (s : storage_t) :
    sealedDrained C s = true ↔ s.offr = s.offw ∧ s.offw = C := by
  unfold sealedDrained
  simp

theorem streamL_dropWhile_sealedDrained (C : Nat) (l : List storage_t) :
    streamL (l.dropWhile (sealedDrained C)) = streamL l := by
  induction l with
  | nil => rfl
  | cons s rest ih =>
    by_cases h : sealedDrained C s = true
    · rw [List.dropWhile_cons_of_pos h, ih, streamL,
          chunkUnread_of_drained s ((sealedDrained_true_iff C s).mp h).1]
      simp
    · rw [List.dropWhile_cons_of_neg h]

theorem unreadL_dropWhile_sealedDrained (C : Nat) (l : List storage_t) :
    unreadL (l.dropWhile (sealedDrained C)) = unreadL l := by
  induction l with
  | nil => rfl
  | cons s rest ih =>
    by_cases h : sealedDrained C s = true
    · rw [List.dropWhile_cons_of_pos h, ih, unreadL,
          ((sealedDrained_true_iff C s).mp h).1]
      omega
    · rw [List.dropWhile_cons_of_neg h]

theorem WF_drop_used (C : Nat) (th : thread_t) (hWF : WF C th) :
    WF C (drop_used_storage C th) := by
  obtain ⟨hmem, hseal⟩ := hWF
  constructor
  · intro x hx
    apply hmem
    rw [← List.takeWhile_append_dropWhile (p := sealedDrained C) (l := th.storage)]
    exact List.mem_append_right _ hx
  · have h2 : allButLastSealed C (th.storage.takeWhile (sealedDrained C) ++
        th.storage.dropWhile (sealedDrained C)) := by
      rw [List.takeWhile_append_dropWhile]
      exact hseal
    exact allButLastSealed_suffix C _ _ h2

theorem data_available_eq (C : Nat) (th : thread_t) :
    data_available C th =
      ((match th.storage.dropWhile (sealedDrained C) with
        | [] => 0
        | s :: _ => s.offw - s.offr),
       ⟨th.storage.dropWhile (sealedDrained C)⟩) := by
  unfold data_available drop_used_storage
  cases h : th.storage.dropWhile (sealedDrained C) <;> simp [h]

theorem allButLastSealed_cons_congr (C : Nat) (s s2 : storage_t) (rest : List storage_t)
    (hss : s2.offw = s.offw) (h : allButLastSealed C (s :: rest)) :
    allButLastSealed C (s2 :: rest) := by
  intro x hx
  cases rest with
  | nil => simp at hx
  | cons b t =>
    rw [List.dropLast_cons_of_ne_nil (by simp)] at hx
    rcases List.mem_cons.mp hx with hx | hx
    · subst hx
      rw [hss]
      exact h s (by rw [List.dropLast_cons_of_ne_nil (by simp)]; exact List.mem_cons_self s _)
    · exact h x (by rw [List.dropLast_cons_of_ne_nil (by simp)]; exact List.mem_cons_of_mem _ hx)

theorem drainFuel_spec (C bufsz : Nat) (hb : 1 ≤ bufsz) :
    ∀ fuel th, WF C th → totalUnread th ≤ fuel →
      drainFuel C bufsz fuel th = streamL th.storage := by
  intro fuel
  induction fuel with
  | zero =>
    intro th hWF hf
    have hz : unreadL th.storage = 0 := by
      unfold totalUnread at hf
      omega
    rw [unreadL_eq_zero_streamL th.storage hz]
    rfl
  | succ f ih =>
    intro th hWF hf
    have hWFd : WF C (drop_used_storage C th) := WF_drop_used C th hWF
    have hstreq : streamL (th.storage.dropWhile (sealedDrained C)) = streamL th.storage :=
      streamL_dropWhile_sealedDrained C th.storage
    have huneq : unreadL (th.storage.dropWhile (sealedDrained C)) = unreadL th.storage :=
      unreadL_dropWhile_sealedDrained C th.storage
    rcases hd : th.storage.dropWhile (sealedDrained C) with _ | ⟨s, rest⟩
    · simp only [drainFuel, data_available_eq, hd]
      rw [← hstreq, hd]
      rfl
    · have hWFs : storageWF C s := by
        apply hWFd.1
        show s ∈ (drop_used_storage C th).storage
        unfold drop_used_storage
        rw [hd]
        exact List.mem_cons_self s rest
      obtain ⟨hro, hlen, hwc⟩ := hWFs
      by_cases hz : s.offw - s.offr = 0
      · -- available reports 0: head is drained but unsealed, so it must be the
        -- single remaining chunk and the whole stream is empty
        simp only [drainFuel, data_available_eq, hd]
        rw [if_pos hz, ← hstreq, hd]
        have hnsd : sealedDrained C s = false := by
          have := List.head?_dropWhile_not (sealedDrained C) th.storage
          rw [hd] at this
          simpa using this
        have hoffr : s.offr = s.offw := by omega
        have hoffwC : s.offw ≠ C := by
          intro hcc
          rw [sealedDrained] at hnsd
          simp [hoffr, hcc] at hnsd
        have hrest : rest = [] := by
          cases hrr : rest with
          | nil => rfl
          | cons b t =>
            exfalso
            apply hoffwC
            apply hWFd.2 s
            show s ∈ ((drop_used_storage C th).storage).dropLast
            unfold drop_used_storage
            rw [hd, hrr, List.dropLast_cons_of_ne_nil (by simp)]
            exact List.mem_cons_self s _
        subst hrest
        rw [streamL, streamL, chunkUnread_of_drained s hoffr]
        rfl
      · -- at least one byte is peeked and advanced past
        have htord1 : 1 ≤ min (s.offw - s.offr) bufsz := by omega
        have hdl : (s.data.drop s.offr).length = s.offw - s.offr := by
          rw [List.length_drop, hlen]
        have hblen : ((s.data.drop s.offr).take (min (s.offw - s.offr) bufsz)).length =
            min (s.offw - s.offr) bufsz := by
          rw [List.length_take, hdl]
          omega
        simp only [drainFuel, data_available_eq, hd]
        rw [if_neg hz]
        simp only [read_storage]
        rw [if_neg (by rw [hblen]; omega)]
        simp only [advance_storage, hblen]
        have hWF2 : WF C ⟨⟨s.data, s.offr + min (s.offw - s.offr) bufsz, s.offw⟩ :: rest⟩ := by
          constructor
          · intro x hx
            rcases List.mem_cons.mp hx with hx | hx
            · subst hx
              exact ⟨by dsimp only; omega, hlen, hwc⟩
            · apply hWFd.1
              show x ∈ (drop_used_storage C th).storage
              unfold drop_used_storage
              rw [hd]
              exact List.mem_cons_of_mem _ hx
          · show allButLastSealed C
              (⟨s.data, s.offr + min (s.offw - s.offr) bufsz, s.offw⟩ :: rest)
            apply allButLastSealed_cons_congr C s
              ⟨s.data, s.offr + min (s.offw - s.offr) bufsz, s.offw⟩ rest rfl
            have := hWFd.2
            unfold drop_used_storage at this
            rw [hd] at this
            exact this
        have hun2 : totalUnread ⟨⟨s.data, s.offr + min (s.offw - s.offr) bufsz, s.offw⟩ :: rest⟩ ≤ f := by
          unfold totalUnread unreadL
          unfold totalUnread at hf
          rw [← huneq, hd] at hf
          unfold unreadL at hf
          dsimp only
          omega
        rw [ih _ hWF2 hun2]
        rw [← hstreq, hd]
        show (s.data.drop s.offr).take (min (s.offw - s.offr) bufsz) ++
            (chunkUnread ⟨s.data, s.offr + min (s.offw - s.offr) bufsz, s.offw⟩ ++ streamL rest) =
          chunkUnread s ++ streamL rest
        rw [← List.append_assoc]
        congr 1
        have hcu2 : chunkUnread ⟨s.data, s.offr + min (s.offw - s.offr) bufsz, s.offw⟩ =
            s.data.drop (s.offr + min (s.offw - s.offr) bufsz) := chunkUnread_eq_of_WF _ hlen
        have hcu1 : chunkUnread s = s.data.drop s.offr := chunkUnread_eq_of_WF _ hlen
        rw [hcu2, hcu1, ← List.drop_drop, List.take_append_drop]

theorem drain_spec (C bufsz : Nat) (th : thread_t) (hb : 1 ≤ bufsz) (hWF : WF C th) :
    drain C bufsz th = streamL th.storage :=
  drainFuel_spec C bufsz hb (totalUnread th) th hWF (Nat.le_refl _)

theorem WF_new (C : Nat) : WF C new_thread_t := by
  constructor
  · intro s h
    simp [new_thread_t] at h
  · intro s h
    simp [new_thread_t] at h

/-- C1: for every chunk capacity `C ≥ 1` and every finite sequence of byte
runs appended via `write_storage` with no storage-exhaustion discard (all disk
writes succeed), repeatedly peeking (`read_storage`) and advancing
(`advance_storage`) until `data_available` reports the queue drained yields
exactly the concatenation of the appended runs, in order. -/
theorem write_read_roundtrip (C bufsz : Nat) (runs : List (List Nat))
    (hC : 1 ≤ C) (hb : 1 ≤ bufsz) :
    ∃ th, appendRuns C new_thread_t runs = some th ∧
      drain C bufsz th = runs.flatten := by
  obtain ⟨th2, heq, hstream, hWF2⟩ := appendRuns_spec C hC runs new_thread_t (WF_new C)
  refine ⟨th2, heq, ?_⟩
  rw [drain_spec C bufsz th2 hb hWF2, hstream]
  rfl

theorem write_read_roundtrip_witness :
    ∃ th, appendRuns 4 new_thread_t [[65, 66, 67, 68, 69, 70, 71, 72], [1, 2]] = some th ∧
      drain 4 3 th = [[65, 66, 67, 68, 69, 70, 71, 72], [1, 2]].flatten :=
  write_read_roundtrip 4 3 [[65, 66, 67, 68, 69, 70, 71, 72], [1, 2]]
    (by decide) (by decide)

/-- C2: `data_available` first evicts exactly the maximal prefix of head
chunks that are sealed (`offw = C`) and fully drained (`offr = offw`), leaves
the remaining chunks in order, and returns `offw - offr` of the new head (or
0 when the queue is empty); a chunk is removed here only when it is sealed,
fully drained and at the head — the removed chunks are precisely that
prefix. -/
theorem data_available_evicts_exactly (C : Nat) (th : thread_t) :
    th.storage = th.storage.takeWhile (sealedDrained C) ++ (data_available C th).2.storage ∧
    (∀ s ∈ th.storage.takeWhile (sealedDrained C), s.offr = s.offw ∧ s.offw = C) ∧
    (∀ s, (data_available C th).2.storage.head? = some s → ¬(s.offr = s.offw ∧ s.offw = C)) ∧
    (data_available C th).1 = (match (data_available C th).2.storage.head? with
      | none => 0
      | some s => s.offw - s.offr) := by
  have h2 : (data_available C th).2.storage = th.storage.dropWhile (sealedDrained C) := by
    rw [data_available_eq]
  refine ⟨?_, ?_, ?_, ?_⟩
  · rw [h2, List.takeWhile_append_dropWhile]
  · intro s hs
    exact (sealedDrained_true_iff C s).mp (List.mem_takeWhile_imp hs)
  · intro s hhead hcon
    rw [h2] at hhead
    have hnot := List.head?_dropWhile_not (sealedDrained C) th.storage
    rw [hhead] at hnot
    simp only at hnot
    rw [(sealedDrained_true_iff C s).mpr hcon] at hnot
    exact absurd hnot (by simp)
  · rw [h2, data_available_eq]
    cases hh : th.storage.dropWhile (sealedDrained C) <;> simp [hh]

theorem data_available_evicts_exactly_witness :
    (⟨[⟨[1, 2], 2, 2⟩, ⟨[3], 0, 1⟩]⟩ : thread_t).storage =
      (⟨[⟨[1, 2], 2, 2⟩, ⟨[3], 0, 1⟩]⟩ : thread_t).storage.takeWhile (sealedDrained 2) ++
        (data_available 2 ⟨[⟨[1, 2], 2, 2⟩, ⟨[3], 0, 1⟩]⟩).2.storage ∧
    (∀ s ∈ (⟨[⟨[1, 2], 2, 2⟩, ⟨[3], 0, 1⟩]⟩ : thread_t).storage.takeWhile (sealedDrained 2),
      s.offr = s.offw ∧ s.offw = 2) ∧
    (∀ s, (data_available 2 ⟨[⟨[1, 2], 2, 2⟩, ⟨[3], 0, 1⟩]⟩).2.storage.head? = some s →
      ¬(s.offr = s.offw ∧ s.offw = 2)) ∧
    (data_available 2 ⟨[⟨[1, 2], 2, 2⟩, ⟨[3], 0, 1⟩]⟩).1 =
      (match (data_available 2 ⟨[⟨[1, 2], 2, 2⟩, ⟨[3], 0, 1⟩]⟩).2.storage.head? with
        | none => 0
        | some s => s.offw - s.offr) :=
  data_available_evicts_exactly 2 ⟨[⟨[1, 2], 2, 2⟩, ⟨[3], 0, 1⟩]⟩

/-- C3: on an empty queue `read_storage` fails fatally; whenever it returns
bytes, they are exactly the prefix of the head chunk's unread data of length
`min(offw - offr, bufsz)` — drawn only from the head chunk, never spanning
into the next one — and their count is at most `min(bufsz, offw - offr)`.
The function is a pure observer: the C code's only state effect (moving the
`fdr` offset) is undone by the paired `lseek`, so the read cursor is
unchanged by construction. -/
theorem read_storage_peek_spec (th : thread_t) (bufsz : Nat) :
    (th.storage = [] → read_storage th bufsz = none) ∧
    (∀ bytes, read_storage th bufsz = some bytes →
      ∃ s rest, th.storage = s :: rest ∧
        bytes = (s.data.drop s.offr).take (min (s.offw - s.offr) bufsz) ∧
        bytes.length ≤ min bufsz (s.offw - s.offr)) := by
  constructor
  · intro h
    simp [read_storage, h]
  · intro bytes hb
    unfold read_storage at hb
    cases hs : th.storage with
    | nil =>
      rw [hs] at hb
      exact absurd hb (by simp)
    | cons s rest =>
      rw [hs] at hb
      simp only at hb
      by_cases hzero : ((s.data.drop s.offr).take (min (s.offw - s.offr) bufsz)).length = 0
      · rw [if_pos hzero] at hb
        exact absurd hb (by simp)
      · rw [if_neg hzero] at hb
        have hbe : bytes = (s.data.drop s.offr).take (min (s.offw - s.offr) bufsz) :=
          (Option.some.injEq _ _).mp hb.symm
        refine ⟨s, rest, rfl, hbe, ?_⟩
        rw [hbe, List.length_take, List.length_drop]
        omega

theorem read_storage_peek_spec_witness :
    ∃ s rest, (⟨[⟨[10, 20, 30], 1, 3⟩]⟩ : thread_t).storage = s :: rest ∧
      [20, 30] = (s.data.drop s.offr).take (min (s.offw - s.offr) 5) ∧
      [20, 30].length ≤ min 5 (s.offw - s.offr) :=
  (read_storage_peek_spec ⟨[⟨[10, 20, 30], 1, 3⟩]⟩ 5).2 [20, 30] (by decide)

/-- C4 counterexample: a call of `advance_storage` with `n = 5` strictly
greater than the head chunk's unread length (0) is not rejected — it succeeds
and pushes the read cursor past the write cursor. -/
theorem advance_storage_no_reject :
    advance_storage ⟨[⟨[9, 9], 2, 2⟩]⟩ 5 = some ⟨[⟨[9, 9], 7, 2⟩]⟩ ∧
    (⟨[9, 9], 2, 2⟩ : storage_t).offw - (⟨[9, 9], 2, 2⟩ : storage_t).offr < 5 := by
  decide

/-- C4 (amended): `advance_storage` fails fatally on an empty queue, and
otherwise adds exactly `n` to the head chunk's read cursor, so the head
chunk's unread length decreases by exactly `n` whenever `n` does not exceed
it; a call with `n` greater than the unread length is not rejected — the
cursor is advanced unconditionally (there is no bound check in the code). -/
theorem advance_storage_spec (th : thread_t) (n : Nat) :
    (th.storage = [] → advance_storage th n = none) ∧
    (∀ s rest, th.storage = s :: rest →
      advance_storage th n = some ⟨⟨s.data, s.offr + n, s.offw⟩ :: rest⟩ ∧
      (n ≤ s.offw - s.offr → (s.offw - (s.offr + n)) + n = s.offw - s.offr)) := by
  constructor
  · intro h
    simp [advance_storage, h]
  · intro s rest h
    constructor
    · simp [advance_storage, h]
    · intro hle
      omega

theorem advance_storage_spec_witness :
    advance_storage ⟨[⟨[7], 0, 1⟩]⟩ 1 = some ⟨⟨[7], 0 + 1, 1⟩ :: []⟩ ∧
    ((1 : Nat) ≤ 1 - 0 → ((1 : Nat) - (0 + 1)) + 1 = 1 - 0) :=
  (advance_storage_spec ⟨[⟨[7], 0, 1⟩]⟩ 1).2 ⟨[7], 0, 1⟩ [] rfl

theorem write_loop_ok (C : Nat) (s : storage_t) (buf : List Nat) (written n : Nat)
    (rest : List WOut) (h1 : s.offw < C) (h2 : written < buf.length) :
    write_loop C s buf written (.ok n :: rest) =
      write_loop C ⟨s.data ++ (buf.drop written).take
          (min n (min (C - s.offw) (buf.length - written))), s.offr,
          s.offw + min n (min (C - s.offw) (buf.length - written))⟩ buf
        (written + min n (min (C - s.offw) (buf.length - written))) rest := by
  conv_lhs => rw [write_loop]
  rw [if_pos ⟨h1, h2⟩]

theorem write_storage_go_nil_buf (C fuel : Nat) (th : thread_t) (outs : List WOut) :
    write_storage_go C fuel th [] outs = some th := by
  cases fuel <;> simp [write_storage_go]

/-- C5: when a `write(2)` issued by `do_storage_write` fails with `ENOSPC`,
the call reports the full requested byte count as written (the unwritten data
is silently discarded) and execution continues (`some`), both at the
`do_storage_write` level and through a whole `write_storage` append; any
other write failure aborts the process immediately (`none`). -/
theorem enospc_policy (C : Nat) (th : thread_t) (buf : List Nat) (outs : List WOut)
    (hC : 1 ≤ C) (hWF : WF C th) (hbuf : buf ≠ []) :
    (∃ th2, do_storage_write C th buf (.enospc :: outs) = some (th2, buf.length, outs)) ∧
    do_storage_write C th buf (.fail :: outs) = none ∧
    (∃ th2, write_storage C th buf [.enospc] = some th2) ∧
    write_storage C th buf [.fail] = none := by
  obtain ⟨l, s, hshape, hlWF, hsWF, hsC, hstream⟩ := postAlloc_spec C th hC hWF
  have hlen : 0 < buf.length := List.length_pos.mpr hbuf
  have hde : do_storage_write C th buf (.enospc :: outs) = some (⟨l ++ [s]⟩, buf.length, outs) := by
    unfold do_storage_write
    rw [hshape, writeTail_concat, write_loop_enospc C s buf 0 outs hsC hlen]
  have hdf : do_storage_write C th buf (.fail :: outs) = none := by
    unfold do_storage_write
    rw [hshape, writeTail_concat, write_loop_fail C s buf 0 outs hsC hlen]
  refine ⟨⟨⟨l ++ [s]⟩, hde⟩, hdf, ⟨⟨l ++ [s]⟩, ?_⟩, ?_⟩
  · unfold write_storage
    have hde2 : do_storage_write C th buf (.enospc :: ([] : List WOut)) =
        some (⟨l ++ [s]⟩, buf.length, []) := by
      unfold do_storage_write
      rw [hshape, writeTail_concat, write_loop_enospc C s buf 0 [] hsC hlen]
    show write_storage_go C (buf.length + 1) th buf [.enospc] = some ⟨l ++ [s]⟩
    simp only [write_storage_go]
    rw [if_neg (by omega), hde2]
    simp [List.drop_length, write_storage_go_nil_buf]
  · unfold write_storage
    show write_storage_go C (buf.length + 1) th buf [.fail] = none
    simp only [write_storage_go]
    rw [if_neg (by omega)]
    have hdf2 : do_storage_write C th buf (.fail :: ([] : List WOut)) = none := by
      unfold do_storage_write
      rw [hshape, writeTail_concat, write_loop_fail C s buf 0 [] hsC hlen]
    rw [hdf2]

theorem enospc_policy_witness :
    (∃ th2, do_storage_write 4 new_thread_t [5, 6] (.enospc :: []) = some (th2, [5, 6].length, [])) ∧
    do_storage_write 4 new_thread_t [5, 6] (.fail :: []) = none ∧
    (∃ th2, write_storage 4 new_thread_t [5, 6] [.enospc] = some th2) ∧
    write_storage 4 new_thread_t [5, 6] [.fail] = none :=
  enospc_policy 4 new_thread_t [5, 6] [] (by decide) (WF_new 4) (by decide)

/-- C10: when storage exhaustion strikes partway through an append — here the
first `write` stores only `k` of the requested bytes and the next `write`
fails with `ENOSPC` — the append still completes reporting the full length
(the remainder is silently discarded), the `k` bytes already written remain
in the tail chunk (its write cursor retains them), and draining the queue
later delivers exactly that proper prefix of the run to the consumer: the
discard is not atomic. -/
theorem enospc_partial_prefix (C k bufsz : Nat) (buf : List Nat)
    (hk : k < buf.length) (hlenC : buf.length ≤ C) (hb : 1 ≤ bufsz) :
    ∃ th2, write_storage C new_thread_t buf [.ok k, .enospc] = some th2 ∧
      th2.storage = [⟨buf.take k, 0, k⟩] ∧
      drain C bufsz th2 = buf.take k ∧
      buf.take k ≠ buf := by
  have hC : 1 ≤ C := by omega
  have hlen : 0 < buf.length := by omega
  have hwl : write_loop C newStorage buf 0 [.ok k, .enospc] =
      some (⟨buf.take k, 0, k⟩, buf.length, []) := by
    have hstep := write_loop_ok C newStorage buf 0 k [.enospc]
      (by simp only [newStorage]; omega) hlen
    have hmin : min k (min (C - newStorage.offw) (buf.length - 0)) = k := by
      simp only [newStorage]
      omega
    rw [hmin] at hstep
    rw [hstep]
    have hs1 : (⟨newStorage.data ++ (buf.drop 0).take k, newStorage.offr,
        newStorage.offw + k⟩ : storage_t) = ⟨buf.take k, 0, k⟩ := by
      simp [newStorage]
    rw [hs1, Nat.zero_add]
    exact write_loop_enospc C ⟨buf.take k, 0, k⟩ buf k [] (by show k < C; omega) hk
  have hna : needAlloc C new_thread_t = true := rfl
  have hdsw : do_storage_write C new_thread_t buf [.ok k, .enospc] =
      some (⟨[⟨buf.take k, 0, k⟩]⟩, buf.length, []) := by
    unfold do_storage_write
    rw [if_pos hna]
    have halloc : (alloc_storage new_thread_t).storage = [] ++ [newStorage] := rfl
    rw [halloc, writeTail_concat, hwl]
    rfl
  refine ⟨⟨[⟨buf.take k, 0, k⟩]⟩, ?_, rfl, ?_, ?_⟩
  · show write_storage_go C (buf.length + 2) new_thread_t buf [.ok k, .enospc] =
      some ⟨[⟨buf.take k, 0, k⟩]⟩
    simp only [write_storage_go]
    rw [if_neg (by omega), hdsw]
    simp [List.drop_length, write_storage_go_nil_buf]
  · have hWF2 : WF C ⟨[⟨buf.take k, 0, k⟩]⟩ := by
      constructor
      · intro x hx
        have hxe : x = ⟨buf.take k, 0, k⟩ := by simpa using hx
        subst hxe
        refine ⟨Nat.zero_le k, ?_, by show k ≤ C; omega⟩
        dsimp only
        rw [List.length_take]
        omega
      · intro x hx
        simp at hx
    rw [drain_spec C bufsz _ hb hWF2]
    show chunkUnread ⟨buf.take k, 0, k⟩ ++ streamL [] = buf.take k
    rw [chunkUnread_eq_of_WF _ (by dsimp only; rw [List.length_take]; omega)]
    simp [streamL]
  · intro heq
    have hlen2 : (buf.take k).length = k := by
      rw [List.length_take]
      omega
    rw [heq] at hlen2
    omega

theorem enospc_partial_prefix_witness :
    ∃ th2, write_storage 4 new_thread_t [7, 8, 9] [.ok 2, .enospc] = some th2 ∧
      th2.storage = [⟨[7, 8, 9].take 2, 0, 2⟩] ∧
      drain 4 4096 th2 = [7, 8, 9].take 2 ∧
      [7, 8, 9].take 2 ≠ [7, 8, 9] :=
  enospc_partial_prefix 4 2 4096 [7, 8, 9] (by decide) (by decide) (by decide)

/-! ### Reachable queue states and the seal invariant -/

/-- Queue states reachable through the public chunk-store operations, starting
from the empty queue of `new_thread_t`: appends (`write_storage`, with any
disk-write outcomes that do not abort), `data_available` (which evicts), and
`advance_storage`.  `read_storage` is a pure observer and does not change the
state. -/
inductive Reachable (C : Nat) : thread_t → Prop where
  | init : Reachable C new_thread_t
  | write (th : thread_t) (buf : List Nat) (outs : List WOut) (th2 : thread_t) :
      Reachable C th → write_storage C th buf outs = some th2 → Reachable C th2
  | avail (th : thread_t) : Reachable C th → Reachable C (data_available C th).2
  | advance (th : thread_t) (n : Nat) (th2 : thread_t) :
      Reachable C th → advance_storage th n = some th2 → Reachable C th2

theorem postAllocSeal (C : Nat) (th : thread_t) (hs : allButLastSealed C th.storage) :
    ∃ l s, (if needAlloc C th then alloc_storage th else th).storage = l ++ [s] ∧
      (∀ x ∈ l, x.offw = C) := by
  by_cases hna : needAlloc C th = true
  · rw [if_pos hna]
    refine ⟨th.storage, newStorage, rfl, ?_⟩
    intro x hx
    rcases List.eq_nil_or_concat th.storage with hnil | ⟨L, b, hcat⟩
    · rw [hnil] at hx
      simp at hx
    · have hcat' : th.storage = L ++ [b] := by simpa using hcat
      have hlast : th.storage.getLast? = some b := by
        rw [hcat']
        exact List.getLast?_concat L
      have hbC : b.offw = C := by
        unfold needAlloc at hna
        rw [hlast] at hna
        simpa using hna
      rw [hcat'] at hx
      rcases List.mem_append.mp hx with hx | hx
      · apply hs
        rw [hcat', List.dropLast_concat]
        exact hx
      · have hxb : x = b := by simpa using hx
        rw [hxb, hbC]
  · rw [if_neg hna]
    rcases List.eq_nil_or_concat th.storage with hnil | ⟨L, b, hcat⟩
    · exfalso
      apply hna
      unfold needAlloc
      rw [hnil]
      rfl
    · have hcat' : th.storage = L ++ [b] := by simpa using hcat
      refine ⟨L, b, hcat', ?_⟩
      intro x hx
      apply hs
      rw [hcat', List.dropLast_concat]
      exact hx

theorem do_storage_write_shape (C : Nat) (th : thread_t) (buf : List Nat) (outs : List WOut)
    (th2 : thread_t) (n : Nat) (rest : List WOut)
    (h : do_storage_write C th buf outs = some (th2, n, rest)) :
    ∃ l s s2, (if needAlloc C th then alloc_storage th else th).storage = l ++ [s] ∧
      th2.storage = l ++ [s2] := by
  have hbase : ∃ l s, (if needAlloc C th then alloc_storage th else th).storage = l ++ [s] := by
    by_cases hna : needAlloc C th = true
    · rw [if_pos hna]
      exact ⟨th.storage, newStorage, rfl⟩
    · rcases List.eq_nil_or_concat th.storage with hnil | ⟨L, b, hcat⟩
      · exfalso
        apply hna
        unfold needAlloc
        rw [hnil]
        rfl
      · rw [if_neg hna]
        exact ⟨L, b, by simpa using hcat⟩
  obtain ⟨l, s, hshape⟩ := hbase
  unfold do_storage_write at h
  rw [hshape, writeTail_concat] at h
  cases hwl : write_loop C s buf 0 outs with
  | none =>
    rw [hwl] at h
    exact absurd h (by simp)
  | some v =>
    obtain ⟨s2, n2, rest2⟩ := v
    rw [hwl] at h
    simp only [Option.some.injEq, Prod.mk.injEq] at h
    obtain ⟨h1, _, _⟩ := h
    exact ⟨l, s, s2, hshape, by rw [← h1]⟩

theorem do_storage_write_seal (C : Nat) (th : thread_t) (buf : List Nat) (outs : List WOut)
    (th2 : thread_t) (n : Nat) (rest : List WOut)
    (h : do_storage_write C th buf outs = some (th2, n, rest))
    (hs : allButLastSealed C th.storage) : allButLastSealed C th2.storage := by
  obtain ⟨l, s, hshape, hl⟩ := postAllocSeal C th hs
  unfold do_storage_write at h
  rw [hshape, writeTail_concat] at h
  cases hwl : write_loop C s buf 0 outs with
  | none =>
    rw [hwl] at h
    exact absurd h (by simp)
  | some v =>
    obtain ⟨s2, n2, rest2⟩ := v
    rw [hwl] at h
    simp only [Option.some.injEq, Prod.mk.injEq] at h
    obtain ⟨h1, _, _⟩ := h
    rw [← h1]
    intro x hx
    rw [List.dropLast_concat] at hx
    exact hl x hx

theorem write_storage_go_seal (C : Nat) :
    ∀ fuel (th : thread_t) buf outs th2,
      write_storage_go C fuel th buf outs = some th2 →
      allButLastSealed C th.storage → allButLastSealed C th2.storage := by
  intro fuel
  induction fuel with
  | zero =>
    intro th buf outs th2 h hs
    simp only [write_storage_go, Option.some.injEq] at h
    rw [← h]
    exact hs
  | succ f ih =>
    intro th buf outs th2 h hs
    simp only [write_storage_go] at h
    by_cases hb : buf.length = 0
    · rw [if_pos hb] at h
      simp only [Option.some.injEq] at h
      rw [← h]
      exact hs
    · rw [if_neg hb] at h
      cases hdw : do_storage_write C th buf outs with
      | none =>
        rw [hdw] at h
        exact absurd h (by simp)
      | some v =>
        obtain ⟨th1, n, rest⟩ := v
        rw [hdw] at h
        exact ih th1 (buf.drop n) rest th2 h (do_storage_write_seal C th buf outs th1 n rest hdw hs)

theorem advance_storage_seal (C : Nat) (th : thread_t) (n : Nat) (th2 : thread_t)
    (h : advance_storage th n = some th2)
    (hs : allButLastSealed C th.storage) : allButLastSealed C th2.storage := by
  unfold advance_storage at h
  cases hst : th.storage with
  | nil =>
    rw [hst] at h
    exact absurd h (by simp)
  | cons s rest =>
    rw [hst] at h
    simp only [Option.some.injEq] at h
    rw [← h]
    show allButLastSealed C (⟨s.data, s.offr + n, s.offw⟩ :: rest)
    apply allButLastSealed_cons_congr C s ⟨s.data, s.offr + n, s.offw⟩ rest rfl
    rw [hst] at hs
    exact hs

/-- C9: every reachable queue state has every chunk except the last sealed
(`offw = C`), so at most one unsealed chunk exists and it is the tail;
`do_storage_write` allocates a fresh tail exactly when the queue is empty or
the current tail is sealed, and writes only into the tail chunk, carrying all
other chunks over unchanged. -/
theorem queue_seal_invariant (C : Nat) :
    (∀ th, Reachable C th → allButLastSealed C th.storage) ∧
    (∀ th : thread_t, needAlloc C th = true ↔
      (th.storage = [] ∨ ∃ l s, th.storage = l ++ [s] ∧ s.offw = C)) ∧
    (∀ th buf outs th2 n rest, do_storage_write C th buf outs = some (th2, n, rest) →
      ∃ l s s2, (if needAlloc C th then alloc_storage th else th).storage = l ++ [s] ∧
        th2.storage = l ++ [s2]) := by
  refine ⟨?_, ?_, ?_⟩
  · intro th hr
    induction hr with
    | init =>
      intro x hx
      simp [new_thread_t] at hx
    | write th buf outs th2 _ hw ih =>
      exact write_storage_go_seal C _ th buf outs th2 hw ih
    | avail th _ ih =>
      have h2 : allButLastSealed C (th.storage.takeWhile (sealedDrained C) ++
          th.storage.dropWhile (sealedDrained C)) := by
        rw [List.takeWhile_append_dropWhile]
        exact ih
      have hda : (data_available C th).2.storage = th.storage.dropWhile (sealedDrained C) := by
        rw [data_available_eq]
      rw [hda]
      exact allButLastSealed_suffix C _ _ h2
    | advance th n th2 _ ha ih =>
      exact advance_storage_seal C th n th2 ha ih
  · intro th
    constructor
    · intro hna
      rcases List.eq_nil_or_concat th.storage with hnil | ⟨L, b, hcat⟩
      · exact Or.inl hnil
      · have hcat' : th.storage = L ++ [b] := by simpa using hcat
        have hlast : th.storage.getLast? = some b := by
          rw [hcat']
          exact List.getLast?_concat L
        refine Or.inr ⟨L, b, hcat', ?_⟩
        unfold needAlloc at hna
        rw [hlast] at hna
        simpa using hna
    · intro hcase
      unfold needAlloc
      rcases hcase with hnil | ⟨l, s, hcat, hC⟩
      · rw [hnil]
        rfl
      · rw [hcat, List.getLast?_concat]
        simpa using hC
  · intro th buf outs th2 n rest h
    exact do_storage_write_shape C th buf outs th2 n rest h

theorem queue_seal_invariant_witness :
    allButLastSealed 4 new_thread_t.storage :=
  (queue_seal_invariant 4).1 new_thread_t Reachable.init

/-! ### The stream pump of do_timeshift -/

/-- Errno values distinguished by the pump code paths. -/
inductive Errno where
  | eintr
  | epipe
  | other
deriving Repr, DecidableEq

/-- Result of one `read(2)` on a descriptor: `bytes l` is `sz > 0` with the
received bytes, `eof` is `sz == 0`, `err e` is `sz == -1` with `errno = e`. -/
inductive IORes where
  | bytes (l : List Nat)
  | eof
  | err (e : Errno)
deriving Repr, DecidableEq

/-- Result of one socket `write(2)`: `ok n` wrote `n` bytes (capped at the
requested amount), `err e` is `-1` with `errno = e`. -/
inductive SWRes where
  | ok (n : Nat)
  | err (e : Errno)
deriving Repr, DecidableEq

/-- The `while (sz)` loop of `sendall`, sending `buf[sent..]`.  Each syscall
outcome is consumed in order; `TEMP_FAILURE_RETRY` makes an `EINTR` failure
loop back to the next `write` with no other effect; any other failure returns
-1 (`none`); once outcomes are exhausted the write succeeds in full.  Returns
the list of transmitted pieces, in order. -/
def sendall_go (buf : List Nat) (sent : Nat) (outs : List SWRes) :
    Option (List (List Nat)) :=
  if sent < buf.length then
    match outs with
    | [] => some [buf.drop sent]
    | .err .eintr :: rest => sendall_go buf sent rest
    | .err _ :: _ => none
    | .ok n :: rest =>
      match sendall_go buf (sent + min n (buf.length - sent)) rest with
      | none => none
      | some ps => some ((buf.drop sent).take (min n (buf.length - sent)) :: ps)
  else some []

/-- Mirror of `sendall`: send the whole buffer, blocking as needed; `none`
models the -1 return, `some pieces` the success return of `size` (the pieces
concatenate to the whole buffer). -/
def sendall (buf : List Nat) (outs : List SWRes) : Option (List (List Nat)) :=
  sendall_go buf 0 outs

/-- Pump state: the owned chunk queue and the `in` flag of `do_timeshift`. -/
structure PumpState where
  th : thread_t
  inOpen : Bool
deriving Repr, DecidableEq

/-- Environment oracle for one loop iteration: which watched descriptors
`select` reported ready (`rIn`/`rOut` for `fdin`/`fdout` read-readiness,
`wOut` for `fdout` write-readiness), and the outcomes of the system calls the
iteration would issue.  `select` itself is wrapped in `TEMP_FAILURE_RETRY` in
the C code, so the readiness is modelled post-retry and a `select` interrupt
never reaches the loop body. -/
structure Oracle where
  rIn : Bool
  rOut : Bool
  wOut : Bool
  inRead : IORes
  revRead : IORes
  revSend : List SWRes
  outWrite : SWRes
  diskOuts : List WOut
deriving Repr, DecidableEq

/-- Which terminal condition took the `goto exit`. -/
inductive TermKind where
  | revReadEnd
  | revSendFail
  | outWriteFail
deriving Repr, DecidableEq

/-- Result of one loop-body execution. -/
inductive StepRes where
  | cont (st : PumpState)
  | term (k : TermKind) (st : PumpState)
  | aborted
deriving Repr, DecidableEq

/-- The `FD_ISSET(fdin, &rd)` block: possible only when the input was watched
(`in` was set at `select` time).  A read error or end-of-stream (`sz == -1 ||
sz == 0`) sets `in = 0` — note this includes `EINTR`; data read is appended
via `write_storage` (`none` = abort inside the disk write). -/
def pumpStepIn (C : Nat) (st : PumpState) (o : Oracle) : Option PumpState :=
  if st.inOpen && o.rIn then
    match o.inRead with
    | .bytes l =>
      match write_storage C st.th l o.diskOuts with
      | none => none
      | some th2 => some ⟨th2, st.inOpen⟩
    | .eof => some ⟨st.th, false⟩
    | .err _ => some ⟨st.th, false⟩
  else some st

/-- The `FD_ISSET(fdout, &wr)` block: possible only when `data` was nonzero
at `select` time.  Peeks up to 4096 bytes, attempts a single write; any write
error (`wsz == -1`, any errno including `EPIPE` and `EINTR`) takes `goto
exit`; on success the store is advanced by the count actually written. -/
def pumpStepOut (C : Nat) (st : PumpState) (data : Nat) (o : Oracle) : StepRes :=
  if data ≠ 0 ∧ o.wOut = true then
    match read_storage st.th 4096 with
    | none => .aborted
    | some bytes =>
      match o.outWrite with
      | .ok n =>
        match advance_storage st.th (min n bytes.length) with
        | none => .aborted
        | some th2 => .cont ⟨th2, st.inOpen⟩
      | .err _ => .term .outWriteFail st
  else .cont st

/-- One execution of the loop body of `do_timeshift`, given the `data` value
computed by the loop condition: the input block, then the reverse-direction
block (`FD_ISSET(fdout, &rd)`, watched iff `in` was set: a read end or error
exits, a sendall failure exits), then the output block. -/
def pumpStep (C : Nat) (st : PumpState) (data : Nat) (o : Oracle) : StepRes :=
  match pumpStepIn C st o with
  | none => .aborted
  | some st1 =>
    if st.inOpen && o.rOut then
      match o.revRead with
      | .bytes l =>
        match sendall l o.revSend with
        | none => .term .revSendFail st1
        | some _ => pumpStepOut C st1 data o
      | .eof => .term .revReadEnd st1
      | .err _ => .term .revReadEnd st1
    else pumpStepOut C st1 data o

/-- The read wait set built by `FD_ZERO(&rd); if (in) { FD_SET(fdin, &rd);
FD_SET(fdout, &rd); }`. -/
def rdSet (fdin fdout : Nat) (inOpen : Bool) : List Nat :=
  if inOpen then [fdin, fdout] else []

/-- The write wait set built by `FD_ZERO(&wr); if (data) FD_SET(fdout, &wr);`. -/
def wrSet (fdout : Nat) (data : Nat) : List Nat :=
  if data ≠ 0 then [fdout] else []

/-- Trace record of one `select` call: the queue and `in` flag at loop entry,
the value `data_available` returned, and the two wait sets passed to
`select`. -/
structure SelectCall where
  thAt : thread_t
  inAt : Bool
  dataAt : Nat
  rd : List Nat
  wr : List Nat
deriving Repr, DecidableEq

/-- How the pump loop ended. -/
inductive ExitKind where
  | drained
  | terminal (k : TermKind)
deriving Repr, DecidableEq

/-- Final outcome of a pump execution: `exited` carries the state at the exit
decision and the queue after `drop_all_storage`; `aborted` is a process
`abort()`; `outOfOracle` means the oracle stream ended with the loop still
running (the pump blocks in `select`). -/
inductive PumpResult where
  | exited (k : ExitKind) (pre : PumpState) (final : thread_t)
  | aborted
  | outOfOracle (st : PumpState)
deriving Repr, DecidableEq

/-- The `while ((data = data_available(th)) || in)` loop of `do_timeshift`,
driven by one oracle per iteration.  Returns the trace of `select` calls and
the final outcome; on both exit paths (loop condition false, `goto exit`)
`drop_all_storage` releases every chunk. -/
def pumpRun (C fdin fdout : Nat) : List Oracle → PumpState → List SelectCall × PumpResult
  | [], st =>
    let r := data_available C st.th
    if r.1 = 0 ∧ st.inOpen = false then
      ([], .exited .drained ⟨r.2, st.inOpen⟩ (drop_all_storage r.2))
    else
      ([⟨st.th, st.inOpen, r.1, rdSet fdin fdout st.inOpen, wrSet fdout r.1⟩],
       .outOfOracle ⟨r.2, st.inOpen⟩)
  | o :: rest, st =>
    let r := data_available C st.th
    if r.1 = 0 ∧ st.inOpen = false then
      ([], .exited .drained ⟨r.2, st.inOpen⟩ (drop_all_storage r.2))
    else
      let call : SelectCall :=
        ⟨st.th, st.inOpen, r.1, rdSet fdin fdout st.inOpen, wrSet fdout r.1⟩
      match pumpStep C ⟨r.2, st.inOpen⟩ r.1 o with
      | .aborted => ([call], .aborted)
      | .term k st2 => ([call], .exited (.terminal k) st2 (drop_all_storage st2.th))
      | .cont st2 =>
        let tr := pumpRun C fdin fdout rest st2
        (call :: tr.1, tr.2)

theorem drop_all_list_eq_nil : ∀ l : List storage_t, drop_all_list l = [] := by
  intro l
  induction l with
  | nil => rfl
  | cons s rest ih => exact ih

theorem drop_all_storage_empty (th : thread_t) : (drop_all_storage th).storage = [] :=
  drop_all_list_eq_nil th.storage

theorem dropWhile_dropWhile (p : storage_t → Bool) (l : List storage_t) :
    (l.dropWhile p).dropWhile p = l.dropWhile p := by
  cases hd : l.dropWhile p with
  | nil => rfl
  | cons a t =>
    have hnot := List.head?_dropWhile_not p l
    rw [hd] at hnot
    simp only [List.head?_cons] at hnot
    rw [List.dropWhile_cons_of_neg (by simp [hnot])]

theorem data_available_idem (C : Nat) (th : thread_t) :
    data_available C (data_available C th).2 = data_available C th := by
  have h3 : (data_available C th).2 = ⟨th.storage.dropWhile (sealedDrained C)⟩ := by
    rw [data_available_eq]
  rw [h3, data_available_eq, data_available_eq]
  simp [dropWhile_dropWhile]

theorem waitset_membership (fdin fdout : Nat) (hne : fdin ≠ fdout) (inb : Bool) (data : Nat) :
    (fdout ∈ wrSet fdout data ↔ data ≠ 0) ∧
    (fdin ∈ rdSet fdin fdout inb ↔ inb = true) ∧
    (fdout ∈ rdSet fdin fdout inb ↔ inb = true) ∧
    (¬inb = true → rdSet fdin fdout inb = []) ∧
    (data = 0 → wrSet fdout data = []) := by
  unfold rdSet wrSet
  refine ⟨?_, ?_, ?_, ?_, ?_⟩
  · by_cases h : data = 0 <;> simp [h]
  · cases inb <;> simp
  · cases inb <;> simp
  · cases inb <;> simp
  · intro h
    simp [h]

/-- C6: at every `select` call any pump execution performs, the recorded
`data` is what `data_available` returned on the queue at loop entry, the
output descriptor is in the write wait set iff that value is nonzero, and the
input descriptor and the reverse-direction descriptor are in the read wait
set iff the input is still open; with nothing buffered the write set is empty
and with the input closed the read set is empty — the pump never waits to
write with nothing buffered and never waits to read on a closed input. -/
theorem pump_waitset_spec (C fdin fdout : Nat) (hne : fdin ≠ fdout) :
    ∀ oracles st, ∀ c ∈ (pumpRun C fdin fdout oracles st).1,
      c.dataAt = (data_available C c.thAt).1 ∧
      (fdout ∈ c.wr ↔ (data_available C c.thAt).1 ≠ 0) ∧
      (fdin ∈ c.rd ↔ c.inAt = true) ∧
      (fdout ∈ c.rd ↔ c.inAt = true) ∧
      (¬c.inAt = true → c.rd = []) ∧
      ((data_available C c.thAt).1 = 0 → c.wr = []) := by
  intro oracles
  induction oracles with
  | nil =>
    intro st c hc
    simp only [pumpRun] at hc
    by_cases hcond : (data_available C st.th).1 = 0 ∧ st.inOpen = false
    · rw [if_pos hcond] at hc
      simp at hc
    · rw [if_neg hcond] at hc
      simp only [List.mem_singleton] at hc
      subst hc
      obtain ⟨m1, m2, m3, m4, m5⟩ :=
        waitset_membership fdin fdout hne st.inOpen (data_available C st.th).1
      exact ⟨rfl, m1, m2, m3, m4, m5⟩
  | cons o rest ih =>
    intro st c hc
    simp only [pumpRun] at hc
    by_cases hcond : (data_available C st.th).1 = 0 ∧ st.inOpen = false
    · rw [if_pos hcond] at hc
      simp at hc
    · rw [if_neg hcond] at hc
      obtain ⟨m1, m2, m3, m4, m5⟩ :=
        waitset_membership fdin fdout hne st.inOpen (data_available C st.th).1
      cases hstep : pumpStep C ⟨(data_available C st.th).2, st.inOpen⟩
          (data_available C st.th).1 o with
      | aborted =>
        rw [hstep] at hc
        simp only [List.mem_singleton] at hc
        subst hc
        exact ⟨rfl, m1, m2, m3, m4, m5⟩
      | term k st2 =>
        rw [hstep] at hc
        simp only [List.mem_singleton] at hc
        subst hc
        exact ⟨rfl, m1, m2, m3, m4, m5⟩
      | cont st2 =>
        rw [hstep] at hc
        simp only [List.mem_cons] at hc
        rcases hc with hc | hc
        · subst hc
          exact ⟨rfl, m1, m2, m3, m4, m5⟩
        · exact ih st2 c hc

theorem pump_waitset_spec_witness :
    (⟨⟨[]⟩, true, 0, [0, 1], []⟩ : SelectCall).dataAt =
      (data_available 4 (⟨⟨[]⟩, true, 0, [0, 1], []⟩ : SelectCall).thAt).1 ∧
    ((1 : Nat) ∈ (⟨⟨[]⟩, true, 0, [0, 1], []⟩ : SelectCall).wr ↔
      (data_available 4 (⟨⟨[]⟩, true, 0, [0, 1], []⟩ : SelectCall).thAt).1 ≠ 0) ∧
    ((0 : Nat) ∈ (⟨⟨[]⟩, true, 0, [0, 1], []⟩ : SelectCall).rd ↔
      (⟨⟨[]⟩, true, 0, [0, 1], []⟩ : SelectCall).inAt = true) ∧
    ((1 : Nat) ∈ (⟨⟨[]⟩, true, 0, [0, 1], []⟩ : SelectCall).rd ↔
      (⟨⟨[]⟩, true, 0, [0, 1], []⟩ : SelectCall).inAt = true) ∧
    (¬(⟨⟨[]⟩, true, 0, [0, 1], []⟩ : SelectCall).inAt = true →
      (⟨⟨[]⟩, true, 0, [0, 1], []⟩ : SelectCall).rd = []) ∧
    ((data_available 4 (⟨⟨[]⟩, true, 0, [0, 1], []⟩ : SelectCall).thAt).1 = 0 →
      (⟨⟨[]⟩, true, 0, [0, 1], []⟩ : SelectCall).wr = []) :=
  pump_waitset_spec 4 0 1 (by decide) [] ⟨⟨[]⟩, true⟩
    ⟨⟨[]⟩, true, 0, [0, 1], []⟩ (by decide)

theorem pumpStepOut_term (C : Nat) (st : PumpState) (data : Nat) (o : Oracle)
    (k : TermKind) (st2 : PumpState) (h : pumpStepOut C st data o = .term k st2) :
    k = .outWriteFail ∧ data ≠ 0 ∧ o.wOut = true ∧ ∃ e, o.outWrite = .err e := by
  unfold pumpStepOut at h
  by_cases hc : data ≠ 0 ∧ o.wOut = true
  · rw [if_pos hc] at h
    cases hrs : read_storage st.th 4096 with
    | none =>
      rw [hrs] at h
      exact absurd h (by simp)
    | some bytes =>
      rw [hrs] at h
      simp only at h
      cases how : o.outWrite with
      | ok n =>
        rw [how] at h
        simp only at h
        cases hav : advance_storage st.th (min n bytes.length) with
        | none =>
          rw [hav] at h
          exact absurd h (by simp)
        | some th2 =>
          rw [hav] at h
          exact absurd h (by simp)
      | err e =>
        rw [how] at h
        simp only [StepRes.term.injEq] at h
        exact ⟨h.1.symm, hc.1, hc.2, e, rfl⟩
  · rw [if_neg hc] at h
    exact absurd h (by simp)

theorem pumpStep_term_characterization (C : Nat) (st : PumpState) (data : Nat) (o : Oracle)
    (k : TermKind) (st2 : PumpState) (h : pumpStep C st data o = .term k st2) :
    (k = .revReadEnd → st.inOpen = true ∧ o.rOut = true ∧
      (o.revRead = .eof ∨ ∃ e, o.revRead = .err e)) ∧
    (k = .revSendFail → st.inOpen = true ∧ o.rOut = true ∧
      (∃ l, o.revRead = .bytes l ∧ sendall l o.revSend = none)) ∧
    (k = .outWriteFail → data ≠ 0 ∧ o.wOut = true ∧ ∃ e, o.outWrite = .err e) := by
  unfold pumpStep at h
  cases hin : pumpStepIn C st o with
  | none =>
    rw [hin] at h
    exact absurd h (by simp)
  | some st1 =>
    rw [hin] at h
    simp only at h
    by_cases hrev : (st.inOpen && o.rOut) = true
    · rw [if_pos hrev] at h
      obtain ⟨hio, hro⟩ := Bool.and_eq_true_iff.mp hrev
      cases hrr : o.revRead with
      | bytes l =>
        rw [hrr] at h
        simp only at h
        cases hsa : sendall l o.revSend with
        | none =>
          rw [hsa] at h
          simp only [StepRes.term.injEq] at h
          refine ⟨?_, ?_, ?_⟩
          · intro hk
            rw [← h.1] at hk
            exact absurd hk (by simp)
          · intro _
            exact ⟨hio, hro, l, rfl, hsa⟩
          · intro hk
            rw [← h.1] at hk
            exact absurd hk (by simp)
        | some ps =>
          rw [hsa] at h
          obtain ⟨hk, hd, hw, he⟩ := pumpStepOut_term C st1 data o k st2 h
          refine ⟨?_, ?_, ?_⟩
          · intro hk2
            rw [hk] at hk2
            exact absurd hk2 (by simp)
          · intro hk2
            rw [hk] at hk2
            exact absurd hk2 (by simp)
          · intro _
            exact ⟨hd, hw, he⟩
      | eof =>
        rw [hrr] at h
        simp only at h
        simp only [StepRes.term.injEq] at h
        refine ⟨?_, ?_, ?_⟩
        · intro _
          exact ⟨hio, hro, Or.inl rfl⟩
        · intro hk
          rw [← h.1] at hk
          exact absurd hk (by simp)
        · intro hk
          rw [← h.1] at hk
          exact absurd hk (by simp)
      | err e =>
        rw [hrr] at h
        simp only at h
        simp only [StepRes.term.injEq] at h
        refine ⟨?_, ?_, ?_⟩
        · intro _
          exact ⟨hio, hro, Or.inr ⟨e, rfl⟩⟩
        · intro hk
          rw [← h.1] at hk
          exact absurd hk (by simp)
        · intro hk
          rw [← h.1] at hk
          exact absurd hk (by simp)
    · rw [if_neg hrev] at h
      obtain ⟨hk, hd, hw, he⟩ := pumpStepOut_term C st1 data o k st2 h
      refine ⟨?_, ?_, ?_⟩
      · intro hk2
        rw [hk] at hk2
        exact absurd hk2 (by simp)
      · intro hk2
        rw [hk] at hk2
        exact absurd hk2 (by simp)
      · intro _
        exact ⟨hd, hw, he⟩

/-- C7: (a) every exit of the pump loop — normal or via a terminal condition
— releases all chunks: the final queue is `drop_all_storage` of the state at
exit, and is empty; (b) a normal (drained) exit happens only with the input
closed and `data_available` reporting 0, so after input end-of-stream the
loop keeps servicing output readiness while any byte is buffered and
terminates only once `available()` is 0; (c) if the input is closed and
nothing is buffered, the loop exits immediately, whatever the environment
does; (d) a terminal exit arises exactly from the listed conditions: reverse
read end-of-stream or error, reverse forwarding (`sendall`) failure, or a
failed write on the output descriptor. -/
theorem pump_exit_spec (C fdin fdout : Nat) :
    (∀ oracles st tr k pre fin,
      pumpRun C fdin fdout oracles st = (tr, .exited k pre fin) →
      fin = drop_all_storage pre.th ∧ fin.storage = [] ∧
      (k = .drained → pre.inOpen = false ∧ (data_available C pre.th).1 = 0)) ∧
    (∀ oracles (st : PumpState), st.inOpen = false → (data_available C st.th).1 = 0 →
      pumpRun C fdin fdout oracles st =
        ([], .exited .drained ⟨(data_available C st.th).2, false⟩
          (drop_all_storage (data_available C st.th).2))) ∧
    (∀ st data o k st2, pumpStep C st data o = .term k st2 →
      (k = .revReadEnd → st.inOpen = true ∧ o.rOut = true ∧
        (o.revRead = .eof ∨ ∃ e, o.revRead = .err e)) ∧
      (k = .revSendFail → st.inOpen = true ∧ o.rOut = true ∧
        (∃ l, o.revRead = .bytes l ∧ sendall l o.revSend = none)) ∧
      (k = .outWriteFail → data ≠ 0 ∧ o.wOut = true ∧ ∃ e, o.outWrite = .err e)) := by
  refine ⟨?_, ?_, ?_⟩
  · intro oracles
    induction oracles with
    | nil =>
      intro st tr k pre fin h
      simp only [pumpRun] at h
      by_cases hcond : (data_available C st.th).1 = 0 ∧ st.inOpen = false
      · rw [if_pos hcond] at h
        simp only [Prod.mk.injEq, PumpResult.exited.injEq] at h
        obtain ⟨-, hk, hpre, hfin⟩ := h
        refine ⟨by rw [← hfin, ← hpre], by rw [← hfin]; exact drop_all_storage_empty _, ?_⟩
        intro _
        rw [← hpre]
        refine ⟨hcond.2, ?_⟩
        show (data_available C (data_available C st.th).2).1 = 0
        rw [data_available_idem]
        exact hcond.1
      · rw [if_neg hcond] at h
        simp at h
    | cons o rest ih =>
      intro st tr k pre fin h
      simp only [pumpRun] at h
      by_cases hcond : (data_available C st.th).1 = 0 ∧ st.inOpen = false
      · rw [if_pos hcond] at h
        simp only [Prod.mk.injEq, PumpResult.exited.injEq] at h
        obtain ⟨-, hk, hpre, hfin⟩ := h
        refine ⟨by rw [← hfin, ← hpre], by rw [← hfin]; exact drop_all_storage_empty _, ?_⟩
        intro _
        rw [← hpre]
        refine ⟨hcond.2, ?_⟩
        show (data_available C (data_available C st.th).2).1 = 0
        rw [data_available_idem]
        exact hcond.1
      · rw [if_neg hcond] at h
        cases hstep : pumpStep C ⟨(data_available C st.th).2, st.inOpen⟩
            (data_available C st.th).1 o with
        | aborted =>
          rw [hstep] at h
          simp at h
        | term k2 st2 =>
          rw [hstep] at h
          simp only [Prod.mk.injEq, PumpResult.exited.injEq] at h
          obtain ⟨-, hk, hpre, hfin⟩ := h
          refine ⟨by rw [← hfin, ← hpre], by rw [← hfin]; exact drop_all_storage_empty _, ?_⟩
          intro hkd
          rw [← hk] at hkd
          exact absurd hkd (by simp)
        | cont st2 =>
          rw [hstep] at h
          simp only [Prod.mk.injEq] at h
          exact ih st2 (pumpRun C fdin fdout rest st2).1 k pre fin (by rw [← h.2])
  · intro oracles st hin hdata
    cases oracles with
    | nil =>
      simp only [pumpRun]
      rw [if_pos ⟨hdata, hin⟩, hin]
    | cons o rest =>
      simp only [pumpRun]
      rw [if_pos ⟨hdata, hin⟩, hin]
  · intro st data o k st2 h
    exact pumpStep_term_characterization C st data o k st2 h

theorem pump_exit_spec_witness :
    pumpRun 4 0 1 [] ⟨⟨[]⟩, false⟩ =
      ([], .exited .drained ⟨(data_available 4 (⟨⟨[]⟩, false⟩ : PumpState).th).2, false⟩
        (drop_all_storage (data_available 4 (⟨⟨[]⟩, false⟩ : PumpState).th).2)) :=
  (pump_exit_spec 4 0 1).2.1 [] ⟨⟨[]⟩, false⟩ rfl (by decide)

/-- C8 counterexample: interrupted system calls in the main pump loop are not
retried.  First conjunct: an `EINTR`-interrupted `read` on the input
descriptor marks the input closed (`in = 0`), since the code tests only
`sz == -1 || sz == 0` and is not wrapped in `TEMP_FAILURE_RETRY`.  Second
conjunct: an `EINTR`-interrupted `write` on the output descriptor terminates
the pump (`goto exit`), since any `wsz == -1` does. -/
theorem pump_eintr_not_retried :
    pumpStep 4 ⟨⟨[]⟩, true⟩ 0
      ⟨true, false, false, .err .eintr, .eof, [], .ok 0, []⟩ = .cont ⟨⟨[]⟩, false⟩ ∧
    pumpStep 4 ⟨⟨[⟨[9], 0, 1⟩]⟩, true⟩ 1
      ⟨false, false, true, .eof, .eof, [], .err .eintr, []⟩ =
      .term .outWriteFail ⟨⟨[⟨[9], 0, 1⟩]⟩, true⟩ := by
  decide

/-- C8 (amended): `select` (wrapped in `TEMP_FAILURE_RETRY`, modelled
post-retry) and the `write` calls inside `sendall` retry `EINTR`
transparently, and partial writes during reverse-direction forwarding are
retried in a loop until all bytes are sent — on success the transmitted
pieces concatenate to the whole buffer — or a real (non-`EINTR`) error
occurs, which fails the forwarding.  But the reads and the single output
write in the main loop are not retried: an interrupted read on the input
descriptor marks the input closed, and an interrupted write on the output
descriptor terminates the pump. -/
theorem eintr_handling :
    (∀ buf outs pieces, sendall buf outs = some pieces → pieces.flatten = buf) ∧
    (∀ buf (sent : Nat) rest, sent < buf.length →
      sendall_go buf sent (.err .eintr :: rest) = sendall_go buf sent rest) ∧
    (∀ buf (sent : Nat) rest, sent < buf.length →
      sendall_go buf sent (.err .other :: rest) = none ∧
      sendall_go buf sent (.err .epipe :: rest) = none) ∧
    (∀ C (th : thread_t) data (o : Oracle), o.rIn = true → o.inRead = .err .eintr →
      o.rOut = false → o.wOut = false →
      pumpStep C ⟨th, true⟩ data o = .cont ⟨th, false⟩) ∧
    (∀ C (st : PumpState) data (o : Oracle) bytes, o.rIn = false → o.rOut = false →
      o.wOut = true → data ≠ 0 → o.outWrite = .err .eintr →
      read_storage st.th 4096 = some bytes →
      pumpStep C st data o = .term .outWriteFail st) := by
  have hjoin : ∀ outs buf (sent : Nat) pieces, sendall_go buf sent outs = some pieces →
      pieces.flatten = buf.drop sent := by
    intro outs
    induction outs with
    | nil =>
      intro buf sent pieces h
      unfold sendall_go at h
      by_cases hs : sent < buf.length
      · rw [if_pos hs] at h
        simp only [Option.some.injEq] at h
        rw [← h]
        simp
      · rw [if_neg hs] at h
        simp only [Option.some.injEq] at h
        rw [← h, List.drop_eq_nil_of_le (by omega)]
        rfl
    | cons w rest ih =>
      intro buf sent pieces h
      unfold sendall_go at h
      by_cases hs : sent < buf.length
      · rw [if_pos hs] at h
        cases w with
        | ok n =>
          simp only at h
          cases hrec : sendall_go buf (sent + min n (buf.length - sent)) rest with
          | none =>
            rw [hrec] at h
            exact absurd h (by simp)
          | some ps =>
            rw [hrec] at h
            simp only [Option.some.injEq] at h
            rw [← h]
            have hps := ih buf (sent + min n (buf.length - sent)) ps hrec
            simp only [List.flatten_cons, hps]
            rw [← List.drop_drop, List.take_append_drop]
        | err e =>
          cases e with
          | eintr => exact ih buf sent pieces h
          | epipe => exact absurd h (by simp)
          | other => exact absurd h (by simp)
      · rw [if_neg hs] at h
        simp only [Option.some.injEq] at h
        rw [← h, List.drop_eq_nil_of_le (by omega)]
        rfl
  refine ⟨?_, ?_, ?_, ?_, ?_⟩
  · intro buf outs pieces h
    have := hjoin outs buf 0 pieces h
    simpa using this
  · intro buf sent rest hs
    conv_lhs => unfold sendall_go
    rw [if_pos hs]
  · intro buf sent rest hs
    constructor
    · unfold sendall_go
      rw [if_pos hs]
    · unfold sendall_go
      rw [if_pos hs]
  · intro C th data o h1 h2 h3 h4
    unfold pumpStep pumpStepIn pumpStepOut
    simp [h1, h2, h3, h4]
  · intro C st data o bytes h1 h2 h3 h4 h5 h6
    unfold pumpStep pumpStepIn pumpStepOut
    simp [h1, h2, h3, h4, h5, h6]

theorem eintr_handling_witness :
    sendall_go [5, 6] 0 [.err .eintr] = sendall_go [5, 6] 0 [] ∧
    ([[5, 6]] : List (List Nat)).flatten = [5, 6] :=
  ⟨eintr_handling.2.1 [5, 6] 0 [] (by decide),
   eintr_handling.1 [5, 6] [] [[5, 6]] (by decide)⟩
